import Mathlib

/-!
Shallow embedding of `src/precompress.rs` (crate `precompress`): the
bounded-concurrency precompression pipeline.  Paths are modelled as a parent
directory (list of OS-string components) plus an optional file-name component;
OS strings are byte lists (Unix `OsStr`).  File-system effects (`File::open`,
`File::create`, the codec calls) and the measured elapsed durations are
abstracted into an oracle, so that the control flow of `encode_file`,
`worker` and the dispatch loop of `precompress` can be reproduced faithfully.
Durations are natural numbers (nanoseconds); the `u64` counters are naturals.
-/

namespace Precompress

/-- Model of `enum Algorithm { Brotli, Deflate, Gzip, Zstd }`. -/
inductive Algorithm where
  | brotli
  | deflate
  | gzip
  | zstd
deriving DecidableEq, Repr

/-- Model of `Algorithm::extension`: the fixed output-filename suffix of each variant. -/
def Algorithm.extension : Algorithm → String
  | .brotli => ".br"
  | .deflate => ".zz"
  | .gzip => ".gz"
  | .zstd => ".zst"

/-- Model of `struct Algorithms`: the four per-algorithm enable flags. -/
structure Algorithms where
  brotli : Bool
  deflate : Bool
  gzip : Bool
  zstd : Bool
deriving DecidableEq, Repr

/-- Whether a given algorithm's flag is set in an `Algorithms` selection. -/
def Algorithms.enabled (algs : Algorithms) : Algorithm → Bool
  | .brotli => algs.brotli
  | .deflate => algs.deflate
  | .gzip => algs.gzip
  | .zstd => algs.zstd

/-- Model of `struct Stats`: success/error counters and the four cumulative
per-algorithm durations (nanoseconds). -/
structure Stats where
  num_files : Nat
  num_errors : Nat
  brotli_time : Nat
  deflate_time : Nat
  gzip_time : Nat
  zstd_time : Nat
deriving DecidableEq, Repr

/-- Model of `Stats::default()`: all counters zero. -/
def Stats.default : Stats :=
  { num_files := 0, num_errors := 0, brotli_time := 0, deflate_time := 0,
    gzip_time := 0, zstd_time := 0 }

/-- Model of `impl Add for Stats`: component-wise addition. -/
def Stats.add (a b : Stats) : Stats :=
  { num_files := a.num_files + b.num_files,
    num_errors := a.num_errors + b.num_errors,
    brotli_time := a.brotli_time + b.brotli_time,
    deflate_time := a.deflate_time + b.deflate_time,
    gzip_time := a.gzip_time + b.gzip_time,
    zstd_time := a.zstd_time + b.zstd_time }

instance : Add Stats := ⟨Stats.add⟩

/-- Read the duration counter of `Stats` matching an algorithm. -/
def Stats.timeOf (s : Stats) : Algorithm → Nat
  | .brotli => s.brotli_time
  | .deflate => s.deflate_time
  | .gzip => s.gzip_time
  | .zstd => s.zstd_time

/-- An OS string (Unix `OsStr`): a list of bytes. -/
abbrev OsStr := List Nat

/-- UTF-8 encoding of one Unicode code point, byte by byte
(model of how `&str` bytes are appended to an `OsString`). -/
def utf8EncodeCp (c : Nat) : List Nat :=
  if c < 0x80 then [c]
  else if c < 0x800 then [0xC0 + c / 64, 0x80 + c % 64]
  else if c < 0x10000 then [0xE0 + c / 4096, 0x80 + c / 64 % 64, 0x80 + c % 64]
  else [0xF0 + c / 262144, 0x80 + c / 4096 % 64, 0x80 + c / 64 % 64, 0x80 + c % 64]

/-- The UTF-8 bytes of a Lean `String` (used for `&str` literals such as the
algorithm suffixes and the eligible extensions). -/
def strBytes (s : String) : List Nat :=
  s.data.flatMap fun c => utf8EncodeCp c.toNat

/-- Is a byte a UTF-8 continuation byte (`0x80..0xBF`)? -/
def isCont (b : Nat) : Bool := 0x80 ≤ b && b < 0xC0

/-- Strict UTF-8 decoding of a byte list into code points, rejecting overlong
forms, surrogates and out-of-range values: the validity test behind
`OsStr::to_str`. -/
def utf8Decode : List Nat → Option (List Nat)
  | [] => some []
  | b :: rest =>
    if b < 0x80 then (utf8Decode rest).map (b :: ·)
    else if b < 0xC2 then none
    else if b < 0xE0 then
      match rest with
      | b1 :: rest1 =>
        if isCont b1 then
          (utf8Decode rest1).map (((b - 0xC0) * 64 + (b1 - 0x80)) :: ·)
        else none
      | [] => none
    else if b < 0xF0 then
      match rest with
      | b1 :: b2 :: rest2 =>
        if isCont b1 && isCont b2 then
          let cp := (b - 0xE0) * 4096 + (b1 - 0x80) * 64 + (b2 - 0x80)
          if cp < 0x800 then none
          else if 0xD800 ≤ cp && cp < 0xE000 then none
          else (utf8Decode rest2).map (cp :: ·)
        else none
      | _ => none
    else if b < 0xF5 then
      match rest with
      | b1 :: b2 :: b3 :: rest3 =>
        if isCont b1 && isCont b2 && isCont b3 then
          let cp := (b - 0xF0) * 262144 + (b1 - 0x80) * 4096 +
            (b2 - 0x80) * 64 + (b3 - 0x80)
          if cp < 0x10000 then none
          else if 0x10FFFF < cp then none
          else (utf8Decode rest3).map (cp :: ·)
        else none
      | _ => none
    else none

/-- Model of `OsStr::to_str`: `some` of the decoded string exactly when the bytes are
valid UTF-8. -/
def OsStr.to_str (b : OsStr) : Option String :=
  (utf8Decode b).map fun cps => String.mk (cps.map Char.ofNat)

/-- A file path: the parent directory (as components) together with the
optional final file-name component, mirroring what `Path::file_name` /
`Path::with_file_name` observe. -/
structure RPath where
  dir : List OsStr
  fileName : Option OsStr
deriving DecidableEq, Repr

/-- Helper for `Path::extension`: the last index of a byte in a list, used to
find the final dot of a file name. -/
def lastIdxOf (target : Nat) : List Nat → Option Nat
  | [] => none
  | a :: rest =>
    match lastIdxOf target rest with
    | some i => some (i + 1)
    | none => if a = target then some 0 else none

/-- Extension of a file-name component per Rust's `split_file_at_dot`:
`none` when the name is `".."` or has no dot past its first byte; otherwise
the bytes after the final dot. -/
def fileNameExtension (f : OsStr) : Option OsStr :=
  if f = [46, 46] then none
  else
    match lastIdxOf 46 (f.drop 1) with
    | none => none
    | some i => some (f.drop (i + 2))

/-- Model of `Path::extension` on an `RPath`. -/
def RPath.extension (p : RPath) : Option OsStr :=
  match p.fileName with
  | none => none
  | some f => fileNameExtension f

/-- Model of `Path::with_file_name`: replace the final component, keeping the parent
directory. -/
def RPath.with_file_name (p : RPath) (name : OsStr) : RPath :=
  { dir := p.dir, fileName := some name }

/-- The `phf_set!` of eligible extensions (`static EXTENSIONS`). -/
def EXTENSIONS : List String :=
  ["atom", "conf", "css", "eot", "htm", "html", "js", "json", "jsx", "md",
   "otf", "rss", "scss", "sitemap", "svg", "text", "ts", "tsx", "ttf", "txt",
   "wasm", "xml", "yaml"]

/-- Model of `fn should_compress(path: &Path) -> bool`. -/
def should_compress (p : RPath) : Bool :=
  match p.extension with
  | some ext =>
    match ext.to_str with
    | some s => EXTENSIONS.contains s
    | none => false
  | none => false

/-- Model of `type Unit = (Algorithm, PathBuf)`: one work item. -/
abbrev Unit := Algorithm × RPath

/-- One entry produced by the directory walk, with the file-type attributes
the dispatch loop queries (`is_symlink`, `is_file`). -/
structure Entry where
  path : RPath
  isFile : Bool
  isSymlink : Bool
deriving DecidableEq, Repr

/-- A walk result: `none` models a traversal error (warned about and
skipped), `some e` a successfully yielded entry. -/
abbrev WalkItem := Option Entry

/-- The eligibility test of the dispatch loop:
`should_compress(path) && !path.is_symlink() && path.is_file()`. -/
def Entry.eligible (e : Entry) : Bool :=
  should_compress e.path && !e.isSymlink && e.isFile

/-- The four `if self.algorithms.<alg> { tx.send((Algorithm::<Alg>, path)) }`
blocks, in source order. -/
def enqueueAlgs (algs : Algorithms) (p : RPath) : List Unit :=
  (if algs.brotli then [(Algorithm.brotli, p)] else []) ++
  (if algs.deflate then [(Algorithm.deflate, p)] else []) ++
  (if algs.gzip then [(Algorithm.gzip, p)] else []) ++
  (if algs.zstd then [(Algorithm.zstd, p)] else [])

/-- The dispatch loop of `Compressor::precompress`: walk the entries, skip
errors with a warning, and for every eligible entry enqueue one work item per
enabled algorithm. Returns the sequence of enqueued work items. -/
def dispatch (algs : Algorithms) (walk : List WalkItem) : List Unit :=
  walk.flatMap fun w =>
    match w with
    | none => []
    | some e => if e.eligible then enqueueAlgs algs e.path else []

/-- Model of `let cap = max(self.threads * 2, 64)`: the bounded channel capacity. -/
def queueCapacity (threads : Nat) : Nat :=
  max (threads * 2) 64

/-- Oracle abstracting the file system and the clock: whether `File::open`
succeeds on a source path, whether `File::create` succeeds on a destination
path, whether the codec call succeeds, and the elapsed duration measured for
a work item. -/
structure Oracle where
  openOk : RPath → Bool
  createOk : RPath → Bool
  codecOk : Algorithm → RPath → Bool
  dur : Algorithm → RPath → Nat

/-- Outcome of `Compressor::encode_file`, keeping the effects the `Result`
hides: which destination file (if any) was created, and where the failure
(if any) happened. `skipNoName` is the `path.file_name() == None` branch,
which returns `Ok(())` without creating anything. -/
inductive EncodeOutcome where
  | openFail
  | skipNoName
  | createFail (dst : RPath)
  | codecFail (dst : RPath)
  | success (dst : RPath)
deriving DecidableEq, Repr

/-- Is the outcome an `Ok(())` of `encode_file`? -/
def EncodeOutcome.isOk : EncodeOutcome → Bool
  | .skipNoName => true
  | .success _ => true
  | _ => false

/-- The destination file created (and possibly written) by `encode_file`,
when `File::create` was reached and succeeded. -/
def EncodeOutcome.created : EncodeOutcome → Option RPath
  | .codecFail dst => some dst
  | .success dst => some dst
  | _ => none

/-- Model of `Compressor::encode_file`: open the source; if the path has no file-name
component return `Ok(())`; otherwise derive the sibling destination by
appending the algorithm's suffix to the file name, create it, and run the
codec. -/
def encode_file (fs : Oracle) (alg : Algorithm) (p : RPath) : EncodeOutcome :=
  if !fs.openOk p then .openFail
  else
    match p.fileName with
    | none => .skipNoName
    | some name =>
      let dst := p.with_file_name (name ++ strBytes alg.extension)
      if !fs.createOk dst then .createFail dst
      else if !fs.codecOk alg p then .codecFail dst
      else .success dst

/-- The body of the worker's `while let` loop for one dequeued item:
on `Err`, count an error; on `Ok`, add the elapsed duration to the matching
per-algorithm counter and count a success. -/
def workerStep (fs : Oracle) (s : Stats) (u : Unit) : Stats :=
  let (algorithm, pathbuf) := u
  if (encode_file fs algorithm pathbuf).isOk then
    let dur := fs.dur algorithm pathbuf
    let s :=
      match algorithm with
      | .brotli => { s with brotli_time := s.brotli_time + dur }
      | .deflate => { s with deflate_time := s.deflate_time + dur }
      | .gzip => { s with gzip_time := s.gzip_time + dur }
      | .zstd => { s with zstd_time := s.zstd_time + dur }
    { s with num_files := s.num_files + 1 }
  else
    { s with num_errors := s.num_errors + 1 }

/-- Model of `Compressor::worker`: drain a sequence of work items, accumulating local
statistics from a `Stats::default()` start. -/
def worker (fs : Oracle) (items : List Unit) : Stats :=
  items.foldl (workerStep fs) Stats.default

/-- The warnings the worker emits: one per failed item, carrying the file
path and the failing outcome (the displayed error). -/
def workerWarnings (fs : Oracle) (items : List Unit) : List (RPath × EncodeOutcome) :=
  items.flatMap fun u =>
    if (encode_file fs u.1 u.2).isOk then [] else [(u.2, encode_file fs u.1 u.2)]

/-- The join-then-fold of `precompress`: sum the per-worker statistics,
starting from `Stats::default()`. -/
def foldStats (l : List Stats) : Stats :=
  l.foldl (· + ·) Stats.default

/-- Did `encode_file` succeed on a work item? -/
def itemOk (fs : Oracle) (u : Unit) : Bool :=
  (encode_file fs u.1 u.2).isOk

/-- The statistics delta contributed by a single work item. -/
def itemStats (fs : Oracle) (u : Unit) : Stats :=
  workerStep fs Stats.default u

lemma Stats.add_def (a b : Stats) : a + b = Stats.add a b := rfl

lemma Stats.add_comm' (a b : Stats) : a + b = b + a := by
  cases a; cases b
  simp only [add_def, Stats.add, mk.injEq]
  omega

lemma Stats.add_assoc' (a b c : Stats) : a + b + c = a + (b + c) := by
  cases a; cases b; cases c
  simp only [add_def, Stats.add, mk.injEq]
  omega

lemma Stats.default_add (a : Stats) : Stats.default + a = a := by
  cases a
  simp only [add_def, Stats.add, Stats.default, mk.injEq]
  omega

lemma Stats.add_default (a : Stats) : a + Stats.default = a := by
  cases a
  simp only [add_def, Stats.add, Stats.default, mk.injEq]
  omega

lemma workerStep_eq_add (fs : Oracle) (s : Stats) (u : Unit) :
    workerStep fs s u = s + itemStats fs u := by
  obtain ⟨a, p⟩ := u
  cases s
  unfold itemStats workerStep
  cases h : (encode_file fs a p).isOk <;> cases a <;>
    simp [h, Stats.add_def, Stats.add, Stats.default]

lemma worker_nil (fs : Oracle) : worker fs [] = Stats.default := rfl

lemma foldl_workerStep (fs : Oracle) (items : List Unit) :
    ∀ s : Stats, items.foldl (workerStep fs) s = s + worker fs items := by
  induction items with
  | nil => intro s; simp [worker, Stats.add_default]
  | cons u rest ih =>
    intro s
    show (rest.foldl (workerStep fs) (workerStep fs s u)) = _
    rw [ih, workerStep_eq_add]
    have h2 : worker fs (u :: rest) = itemStats fs u + worker fs rest := by
      show (rest.foldl (workerStep fs) (workerStep fs Stats.default u)) = _
      rw [ih, workerStep_eq_add, Stats.default_add]
    rw [h2, Stats.add_assoc']

lemma worker_cons (fs : Oracle) (u : Unit) (rest : List Unit) :
    worker fs (u :: rest) = itemStats fs u + worker fs rest := by
  show (rest.foldl (workerStep fs) (workerStep fs Stats.default u)) = _
  rw [foldl_workerStep, workerStep_eq_add, Stats.default_add]

lemma worker_append (fs : Oracle) (l1 l2 : List Unit) :
    worker fs (l1 ++ l2) = worker fs l1 + worker fs l2 := by
  induction l1 with
  | nil => simp [worker_nil, Stats.default_add]
  | cons u rest ih =>
    rw [List.cons_append, worker_cons, ih, worker_cons, Stats.add_assoc']

lemma itemStats_ok (fs : Oracle) (u : Unit) (h : itemOk fs u = true) :
    (itemStats fs u).num_files = 1 ∧ (itemStats fs u).num_errors = 0 := by
  obtain ⟨a, p⟩ := u
  unfold itemOk at h
  unfold itemStats workerStep
  cases a <;> simp [h, Stats.default]

lemma itemStats_err (fs : Oracle) (u : Unit) (h : itemOk fs u = false) :
    itemStats fs u = { Stats.default with num_errors := 1 } := by
  obtain ⟨a, p⟩ := u
  unfold itemOk at h
  unfold itemStats workerStep
  simp [h, Stats.default]

lemma worker_num_files (fs : Oracle) (items : List Unit) :
    (worker fs items).num_files = items.countP (itemOk fs) := by
  induction items with
  | nil => rfl
  | cons u rest ih =>
    rw [worker_cons, List.countP_cons]
    have : (itemStats fs u + worker fs rest).num_files =
        (itemStats fs u).num_files + (worker fs rest).num_files := rfl
    rw [this, ih]
    cases h : itemOk fs u
    · rw [itemStats_err fs u h]; simp [Stats.default]
    · have h2 := itemStats_ok fs u h
      simp [h2.1]
      omega

lemma worker_num_errors (fs : Oracle) (items : List Unit) :
    (worker fs items).num_errors = items.countP (fun u => !itemOk fs u) := by
  induction items with
  | nil => rfl
  | cons u rest ih =>
    rw [worker_cons, List.countP_cons]
    have : (itemStats fs u + worker fs rest).num_errors =
        (itemStats fs u).num_errors + (worker fs rest).num_errors := rfl
    rw [this, ih]
    cases h : itemOk fs u
    · rw [itemStats_err fs u h]
      simp [h, Stats.default]
      omega
    · have h2 := itemStats_ok fs u h
      simp [h, h2.2]

lemma worker_files_add_errors (fs : Oracle) (items : List Unit) :
    (worker fs items).num_files + (worker fs items).num_errors = items.length := by
  induction items with
  | nil => rfl
  | cons u rest ih =>
    rw [worker_cons]
    have hf : (itemStats fs u + worker fs rest).num_files =
        (itemStats fs u).num_files + (worker fs rest).num_files := rfl
    have he : (itemStats fs u + worker fs rest).num_errors =
        (itemStats fs u).num_errors + (worker fs rest).num_errors := rfl
    rw [hf, he, List.length_cons]
    cases h : itemOk fs u
    · rw [itemStats_err fs u h]
      simp only [Stats.default]
      omega
    · have := itemStats_ok fs u h
      omega

lemma foldl_stats_add (l : List Stats) :
    ∀ s : Stats, l.foldl (· + ·) s = s + foldStats l := by
  induction l with
  | nil => intro s; show s = s + Stats.default; rw [Stats.add_default]
  | cons y t ih =>
    intro s
    show t.foldl (· + ·) (s + y) = _
    rw [ih]
    have h2 : foldStats (y :: t) = y + foldStats t := by
      show t.foldl (· + ·) (Stats.default + y) = _
      rw [Stats.default_add, ih]
    rw [h2, Stats.add_assoc']

lemma foldStats_cons (x : Stats) (l : List Stats) :
    foldStats (x :: l) = x + foldStats l := by
  show l.foldl (· + ·) (Stats.default + x) = _
  rw [Stats.default_add, foldl_stats_add]

lemma foldStats_eq_worker_join (fs : Oracle) (parts : List (List Unit)) :
    foldStats (parts.map (worker fs)) = worker fs (parts.flatMap id) := by
  induction parts with
  | nil => rfl
  | cons part rest ih =>
    rw [List.map_cons, foldStats_cons, ih, List.flatMap_cons, worker_append]
    rfl

lemma mem_enqueueAlgs {algs : Algorithms} {p : RPath} {u : Unit} :
    u ∈ enqueueAlgs algs p ↔ u.2 = p ∧ algs.enabled u.1 = true := by
  obtain ⟨a, q⟩ := u
  cases a <;>
    cases hb : algs.brotli <;> cases hd : algs.deflate <;>
    cases hg : algs.gzip <;> cases hz : algs.zstd <;>
    simp_all [enqueueAlgs, Algorithms.enabled]

lemma count_enqueueAlgs (algs : Algorithms) (p : RPath) (a : Algorithm) (q : RPath) :
    (enqueueAlgs algs p).count (a, q) =
      if q = p ∧ algs.enabled a = true then 1 else 0 := by
  cases a <;>
    simp only [enqueueAlgs, Algorithms.enabled, List.count_append] <;>
    split_ifs <;> simp_all [List.count_cons, List.count_nil, Prod.ext_iff]

lemma dispatch_mem_iff {algs : Algorithms} {walk : List WalkItem} {u : Unit} :
    u ∈ dispatch algs walk ↔
      ∃ e : Entry, some e ∈ walk ∧ e.eligible = true ∧ u.2 = e.path ∧
        algs.enabled u.1 = true := by
  unfold dispatch
  rw [List.mem_flatMap]
  constructor
  · rintro ⟨w, hw, hu⟩
    match w with
    | none => simp at hu
    | some e =>
      refine ⟨e, hw, ?_⟩
      by_cases helig : e.eligible = true
      · simp only [helig, if_true] at hu
        exact ⟨helig, (mem_enqueueAlgs.mp hu).1, (mem_enqueueAlgs.mp hu).2⟩
      · simp only [helig] at hu
        simp at hu
  · rintro ⟨e, hw, helig, hpath, henab⟩
    exact ⟨some e, hw, by simp [helig, mem_enqueueAlgs, hpath, henab]⟩

lemma should_compress_fileName {p : RPath} (h : should_compress p = true) :
    ∃ f, p.fileName = some f := by
  unfold should_compress at h
  unfold RPath.extension at h
  match hf : p.fileName with
  | none => rw [hf] at h; simp at h
  | some f => exact ⟨f, rfl⟩

lemma count_dispatch_zero {algs : Algorithms} {walk : List WalkItem}
    {a : Algorithm} {p : RPath}
    (h : ∀ e : Entry, some e ∈ walk → e.path ≠ p) :
    (dispatch algs walk).count (a, p) = 0 := by
  rw [List.count_eq_zero]
  intro hmem
  obtain ⟨e, hw, _, hpath, _⟩ := dispatch_mem_iff.mp hmem
  exact h e hw hpath.symm

lemma count_dispatch_one {algs : Algorithms} {walk : List WalkItem}
    (hnodup : ((walk.filterMap id).map Entry.path).Nodup) :
    ∀ e : Entry, some e ∈ walk → e.eligible = true →
      ∀ a : Algorithm, algs.enabled a = true →
        (dispatch algs walk).count (a, e.path) = 1 := by
  induction walk with
  | nil => intro e he; simp at he
  | cons w rest ih =>
    intro e he helig a henab
    match w with
    | none =>
      have hrest : some e ∈ rest := by
        rcases List.mem_cons.mp he with h | h
        · exact absurd h (by simp)
        · exact h
      have : dispatch algs (none :: rest) = dispatch algs rest := by
        unfold dispatch; simp
      rw [this]
      exact ih hnodup e hrest helig a henab
    | some e' =>
      have hself : dispatch algs (some e' :: rest) =
          (if e'.eligible then enqueueAlgs algs e'.path else []) ++
            dispatch algs rest := by
        unfold dispatch; simp
      have hnodup' : ((rest.filterMap id).map Entry.path).Nodup := by
        simpa using (List.nodup_cons.mp (by simpa using hnodup)).2
      have hhead : e'.path ∉ (rest.filterMap id).map Entry.path := by
        exact (List.nodup_cons.mp (by simpa using hnodup)).1
      rcases List.mem_cons.mp he with h | h
      · have heq : e' = e := by injection h.symm
        subst heq
        rw [hself, List.count_append, if_pos helig, count_enqueueAlgs]
        rw [if_pos ⟨rfl, henab⟩]
        have : (dispatch algs rest).count (a, e'.path) = 0 := by
          apply count_dispatch_zero
          intro e2 he2 hpe2
          exact hhead (by
            rw [← hpe2]
            exact List.mem_map_of_mem Entry.path (by simpa using he2))
        omega
      · have hne : e'.path ≠ e.path := by
          intro hcontra
          exact hhead (hcontra ▸
            List.mem_map_of_mem Entry.path (by simpa using h))
        rw [hself, List.count_append]
        have hz : (if e'.eligible = true then enqueueAlgs algs e'.path
            else []).count (a, e.path) = 0 := by
          split
          · rw [count_enqueueAlgs, if_neg]
            rintro ⟨hq, _⟩
            exact hne hq.symm
          · rfl
        rw [hz, ih hnodup' e h helig a henab]

/-- An oracle where every file operation succeeds and every item is measured
at 7 time units. -/
def oracleAll : Oracle :=
  { openOk := fun _ => true, createOk := fun _ => true,
    codecOk := fun _ _ => true, dur := fun _ _ => 7 }

/-- The path `a.html` (bytes of the name) in the root directory. -/
def pHtml : RPath := { dir := [], fileName := some [97, 46, 104, 116, 109, 108] }

/-- The path `b.js` (bytes of the name) in the root directory. -/
def pJs : RPath := { dir := [], fileName := some [98, 46, 106, 115] }

/-- A degenerate path with no file-name component (such as `/`). -/
def pRoot : RPath := { dir := [], fileName := none }

/-- An oracle that fails `File::open` on `b.js` and succeeds elsewhere. -/
def oracleNoOpenJs : Oracle :=
  { openOk := fun p => p != pJs, createOk := fun _ => true,
    codecOk := fun _ _ => true, dur := fun _ _ => 3 }

/-- A one-entry walk: the regular file `a.html`, not a symlink. -/
def walk1 : List WalkItem :=
  [some { path := pHtml, isFile := true, isSymlink := false }]

/-- A selection with only gzip enabled. -/
def algsGz : Algorithms :=
  { brotli := false, deflate := false, gzip := true, zstd := false }

/-- A selection with brotli and gzip enabled. -/
def algsBrGz : Algorithms :=
  { brotli := true, deflate := false, gzip := true, zstd := false }

/-- C4: `Stats` under component-wise addition is a commutative monoid:
addition commutes, associates, and the all-zeros `Stats.default` is a
two-sided identity. -/
theorem stats_comm_monoid (a b c : Stats) :
    a + b = b + a ∧ (a + b) + c = a + (b + c) ∧
    Stats.default + a = a ∧ a + Stats.default = a :=
  ⟨Stats.add_comm' a b, Stats.add_assoc' a b c,
    Stats.default_add a, Stats.add_default a⟩

/-- C8: the work-item channel capacity is `max(2 * thread_count, 64)` for
every thread count. -/
theorem queue_capacity_spec (threads : Nat) :
    queueCapacity threads = max (2 * threads) 64 := by
  unfold queueCapacity
  rw [Nat.mul_comm]

/-- C7: `should_compress` returns `false` when the path has no extension or
the extension is not valid UTF-8, and otherwise returns `true` exactly when
the decoded extension is an exact, case-sensitive member of `EXTENSIONS`.
The embedded filter is a pure function, so it has no side effects. -/
theorem should_compress_spec (p : RPath) :
    (p.extension = none → should_compress p = false) ∧
    (∀ ext : OsStr, p.extension = some ext → ext.to_str = none →
      should_compress p = false) ∧
    (∀ (ext : OsStr) (s : String), p.extension = some ext →
      ext.to_str = some s →
      (should_compress p = true ↔ s ∈ EXTENSIONS)) := by
  refine ⟨?_, ?_, ?_⟩
  · intro h
    unfold should_compress
    rw [h]
  · intro ext h1 h2
    unfold should_compress
    rw [h1]
    simp only [h2]
  · intro ext s h1 h2
    unfold should_compress
    rw [h1]
    simp only [h2]
    simp

/-- Witness for C7 at the concrete path `a.html`: extension `html` decodes
to the string `"html"`, which is in the set, so the filter accepts. -/
theorem should_compress_spec_witness : should_compress pHtml = true :=
  ((should_compress_spec pHtml).2.2 [104, 116, 109, 108] "html"
    (by decide) (by decide)).mpr (by decide)

/-- C1: the dispatch loop enqueues only work items whose algorithm is
enabled and whose path comes from a walked entry that is a regular file,
not a symlink, and passes the extension filter; and when the walk yields
each path at most once, every eligible (file, enabled algorithm) pair is
enqueued exactly once. -/
theorem dispatch_enqueue_correct (algs : Algorithms) (walk : List WalkItem)
    (hnodup : ((walk.filterMap id).map Entry.path).Nodup) :
    (∀ u ∈ dispatch algs walk, algs.enabled u.1 = true ∧
      ∃ e : Entry, some e ∈ walk ∧ e.path = u.2 ∧ e.isFile = true ∧
        e.isSymlink = false ∧ should_compress e.path = true) ∧
    (∀ e : Entry, some e ∈ walk → e.eligible = true →
      ∀ a : Algorithm, algs.enabled a = true →
        (dispatch algs walk).count (a, e.path) = 1) := by
  constructor
  · intro u hu
    obtain ⟨e, hw, helig, hpath, henab⟩ := dispatch_mem_iff.mp hu
    have h3 := helig
    unfold Entry.eligible at h3
    simp only [Bool.and_eq_true, Bool.not_eq_true'] at h3
    exact ⟨henab, e, hw, hpath.symm, h3.2, h3.1.2, h3.1.1⟩
  · exact count_dispatch_one hnodup

/-- Witness for C1: with only gzip enabled and a walk yielding the single
regular file `a.html`, the pair (gzip, `a.html`) is enqueued exactly once. -/
theorem dispatch_enqueue_correct_witness :
    (dispatch algsGz walk1).count (Algorithm.gzip, pHtml) = 1 :=
  (dispatch_enqueue_correct algsGz walk1 (by decide)).2
    { path := pHtml, isFile := true, isSymlink := false }
    (by decide) (by decide) Algorithm.gzip (by decide)

/-- C2: each dequeued item increments exactly one of the two counters by
exactly one; and for any distribution of the dispatched work items among
workers (a partition whose concatenation is a permutation of the dispatch
sequence), the folded totals satisfy
`num_files + num_errors = number of enqueued items` and coincide with the
totals of a single sequential worker. -/
theorem stats_conservation (fs : Oracle) (algs : Algorithms)
    (walk : List WalkItem) (parts : List (List Unit))
    (hperm : (parts.flatMap id).Perm (dispatch algs walk)) :
    (∀ (s : Stats) (u : Unit),
      ((workerStep fs s u).num_files = s.num_files + 1 ∧
        (workerStep fs s u).num_errors = s.num_errors) ∨
      ((workerStep fs s u).num_files = s.num_files ∧
        (workerStep fs s u).num_errors = s.num_errors + 1)) ∧
    (foldStats (parts.map (worker fs))).num_files +
        (foldStats (parts.map (worker fs))).num_errors =
      (dispatch algs walk).length ∧
    (foldStats (parts.map (worker fs))).num_files =
      (worker fs (dispatch algs walk)).num_files ∧
    (foldStats (parts.map (worker fs))).num_errors =
      (worker fs (dispatch algs walk)).num_errors := by
  have hjoin := foldStats_eq_worker_join fs parts
  have hfiles : (worker fs (parts.flatMap id)).num_files =
      (worker fs (dispatch algs walk)).num_files := by
    rw [worker_num_files, worker_num_files]
    exact hperm.countP_eq (itemOk fs)
  have herrs : (worker fs (parts.flatMap id)).num_errors =
      (worker fs (dispatch algs walk)).num_errors := by
    rw [worker_num_errors, worker_num_errors]
    exact hperm.countP_eq fun u => !itemOk fs u
  refine ⟨?_, ?_, ?_, ?_⟩
  · intro s u
    rw [workerStep_eq_add]
    have hf : (s + itemStats fs u).num_files =
        s.num_files + (itemStats fs u).num_files := rfl
    have he : (s + itemStats fs u).num_errors =
        s.num_errors + (itemStats fs u).num_errors := rfl
    cases h : itemOk fs u
    · right
      rw [hf, he, itemStats_err fs u h]
      constructor <;> simp [Stats.default]
    · left
      have h2 := itemStats_ok fs u h
      rw [hf, he, h2.1, h2.2]
      omega
  · rw [hjoin, hfiles, herrs,
      worker_files_add_errors fs (dispatch algs walk)]
  · rw [hjoin, hfiles]
  · rw [hjoin, herrs]

/-- Witness for C2: two single-item workers over a permuted split of the
dispatch of `a.html` with brotli and gzip enabled account for every
enqueued item. -/
theorem stats_conservation_witness :
    (foldStats ([[(Algorithm.gzip, pHtml)], [(Algorithm.brotli, pHtml)]].map
        (worker oracleAll))).num_files +
      (foldStats ([[(Algorithm.gzip, pHtml)], [(Algorithm.brotli, pHtml)]].map
        (worker oracleAll))).num_errors =
      (dispatch algsBrGz walk1).length :=
  (stats_conservation oracleAll algsBrGz walk1
    [[(Algorithm.gzip, pHtml)], [(Algorithm.brotli, pHtml)]] (by decide)).2.1

/-- C3 (counterexample): on a path with no file-name component the encode
procedure does return `Ok(())` without creating an output, but the worker
then counts it as a success: `num_files` (files_succeeded) becomes 1, not 0,
and the gzip duration counter receives the elapsed time — refuting
"without incrementing any counter". -/
theorem encode_no_name_counterexample :
    encode_file oracleAll Algorithm.gzip pRoot = .skipNoName ∧
    (encode_file oracleAll Algorithm.gzip pRoot).created = none ∧
    (workerStep oracleAll Stats.default (Algorithm.gzip, pRoot)).num_files = 1 ∧
    (workerStep oracleAll Stats.default (Algorithm.gzip, pRoot)).gzip_time = 7 := by
  decide

/-- C3 (amended): when the path has no file-name component and the source
open succeeds, `encode_file` returns success without creating any output
file; the worker therefore leaves `num_errors` unchanged but increments
`num_files` and adds the elapsed duration to the item's algorithm counter. -/
theorem encode_no_name_spec (fs : Oracle) (s : Stats) (a : Algorithm)
    (p : RPath) (hname : p.fileName = none) (hopen : fs.openOk p = true) :
    encode_file fs a p = .skipNoName ∧
    (encode_file fs a p).created = none ∧
    (workerStep fs s (a, p)).num_errors = s.num_errors ∧
    (workerStep fs s (a, p)).num_files = s.num_files + 1 ∧
    (workerStep fs s (a, p)).timeOf a = s.timeOf a + fs.dur a p := by
  have henc : encode_file fs a p = .skipNoName := by
    unfold encode_file
    rw [hopen, hname]
    simp
  refine ⟨henc, by rw [henc]; rfl, ?_, ?_, ?_⟩
  all_goals
    cases a <;> simp [workerStep, henc, EncodeOutcome.isOk, Stats.timeOf]

/-- Witness for C3 (amended) at the concrete degenerate path. -/
theorem encode_no_name_spec_witness :
    (workerStep oracleAll Stats.default (Algorithm.brotli, pRoot)).num_files =
      Stats.default.num_files + 1 :=
  (encode_no_name_spec oracleAll Stats.default Algorithm.brotli pRoot
    (by decide) (by decide)).2.2.2.1

/-- C5: a failing work item makes the worker emit a warning carrying the
file path and the error, contribute exactly one `num_errors` increment and
nothing else, and the worker keeps draining: the run's statistics are those
of the remaining items plus that single error. -/
theorem worker_failure_isolated (fs : Oracle) (l1 l2 : List Unit)
    (a : Algorithm) (p : RPath)
    (hfail : (encode_file fs a p).isOk = false) :
    worker fs (l1 ++ (a, p) :: l2) =
      worker fs (l1 ++ l2) + { Stats.default with num_errors := 1 } ∧
    workerWarnings fs (l1 ++ (a, p) :: l2) =
      workerWarnings fs l1 ++
        (p, encode_file fs a p) :: workerWarnings fs l2 := by
  constructor
  · rw [worker_append, worker_cons, worker_append,
      itemStats_err fs (a, p) (show itemOk fs (a, p) = false from hfail)]
    have hre : ∀ x y z : Stats, x + (y + z) = x + z + y := by
      intro x y z
      rw [Stats.add_comm' y z, ← Stats.add_assoc']
    rw [hre]
  · unfold workerWarnings
    rw [List.flatMap_append, List.flatMap_cons]
    simp [hfail]

/-- Witness for C5: open of `b.js` fails between two succeeding items; the
run's statistics equal the two-item run plus a single error. -/
theorem worker_failure_isolated_witness :
    worker oracleNoOpenJs
        ([(Algorithm.gzip, pHtml)] ++
          (Algorithm.gzip, pJs) :: [(Algorithm.brotli, pHtml)]) =
      worker oracleNoOpenJs ([(Algorithm.gzip, pHtml)] ++ [(Algorithm.brotli, pHtml)]) +
        { Stats.default with num_errors := 1 } :=
  (worker_failure_isolated oracleNoOpenJs [(Algorithm.gzip, pHtml)]
    [(Algorithm.brotli, pHtml)] Algorithm.gzip pJs (by decide)).1

/-- C6: a successful encode writes the destination as a sibling of the
source (same parent directory) whose name is the source file name with the
algorithm's fixed suffix appended; the suffix bytes are `.br`, `.zz`, `.gz`,
`.zst` for Brotli, Deflate, Gzip, Zstd respectively. -/
theorem encode_file_success_dest (fs : Oracle) (a : Algorithm) (p : RPath)
    (dst : RPath) (hsucc : encode_file fs a p = .success dst) :
    (∃ name : OsStr, p.fileName = some name ∧ dst.dir = p.dir ∧
      dst.fileName = some (name ++ strBytes a.extension)) ∧
    strBytes Algorithm.brotli.extension = [46, 98, 114] ∧
    strBytes Algorithm.deflate.extension = [46, 122, 122] ∧
    strBytes Algorithm.gzip.extension = [46, 103, 122] ∧
    strBytes Algorithm.zstd.extension = [46, 122, 115, 116] := by
  refine ⟨?_, by decide, by decide, by decide, by decide⟩
  unfold encode_file at hsucc
  cases hopen : fs.openOk p
  · rw [hopen] at hsucc
    simp at hsucc
  · rw [hopen] at hsucc
    match hname : p.fileName with
    | none =>
      rw [hname] at hsucc
      simp at hsucc
    | some name =>
      rw [hname] at hsucc
      refine ⟨name, rfl, ?_, ?_⟩
      all_goals
        simp only [Bool.not_true, Bool.false_eq_true, if_false] at hsucc
        split_ifs at hsucc with h1 h2
        all_goals simp_all [RPath.with_file_name]
        all_goals rw [← hsucc]

/-- Witness for C6: gzip on `a.html` with the all-success oracle produces
the sibling `a.html.gz`. -/
theorem encode_file_success_dest_witness :
    ∃ name : OsStr, pHtml.fileName = some name ∧
      (RPath.mk [] (some [97, 46, 104, 116, 109, 108, 46, 103, 122])).dir =
        pHtml.dir ∧
      (RPath.mk [] (some [97, 46, 104, 116, 109, 108, 46, 103, 122])).fileName =
        some (name ++ strBytes Algorithm.gzip.extension) :=
  (encode_file_success_dest oracleAll Algorithm.gzip pHtml
    (RPath.mk [] (some [97, 46, 104, 116, 109, 108, 46, 103, 122]))
    (by decide)).1

/-- C9: processing one work item touches at most one duration counter: on
failure all four duration counters are unchanged, and on success only the
counter matching the item's algorithm grows (by the elapsed duration). -/
theorem workerStep_time_frame (fs : Oracle) (s : Stats) (a : Algorithm)
    (p : RPath) :
    ((encode_file fs a p).isOk = false →
      ∀ b : Algorithm, (workerStep fs s (a, p)).timeOf b = s.timeOf b) ∧
    ((encode_file fs a p).isOk = true →
      (workerStep fs s (a, p)).timeOf a = s.timeOf a + fs.dur a p ∧
      ∀ b : Algorithm, b ≠ a →
        (workerStep fs s (a, p)).timeOf b = s.timeOf b) := by
  constructor
  · intro h b
    cases b <;> simp [workerStep, h, Stats.timeOf]
  · intro h
    constructor
    · cases a <;> simp [workerStep, h, Stats.timeOf]
    · intro b hb
      cases a <;> cases b <;>
        simp_all [workerStep, Stats.timeOf]

/-- Witness for C9 at a successful concrete item: only the gzip counter
grows. -/
theorem workerStep_time_frame_witness :
    (workerStep oracleAll Stats.default (Algorithm.gzip, pHtml)).timeOf
        Algorithm.brotli =
      Stats.default.timeOf Algorithm.brotli :=
  ((workerStep_time_frame oracleAll Stats.default Algorithm.gzip pHtml).2
    (by decide)).2 Algorithm.brotli (by decide)

/-- C10: every dispatched work item's path passed the extension filter, so
it has a file-name component, and `encode_file` can never take the silent
`skipNoName` branch on it. -/
theorem dispatched_never_skipped (fs : Oracle) (algs : Algorithms)
    (walk : List WalkItem) (a : Algorithm) (p : RPath)
    (h : (a, p) ∈ dispatch algs walk) :
    p.fileName ≠ none ∧ encode_file fs a p ≠ .skipNoName := by
  obtain ⟨e, hw, helig, hpath, henab⟩ := dispatch_mem_iff.mp h
  have hsc : should_compress p = true := by
    have h3 := helig
    unfold Entry.eligible at h3
    simp only [Bool.and_eq_true] at h3
    rw [show p = e.path from hpath]
    exact h3.1.1
  obtain ⟨f, hf⟩ := should_compress_fileName hsc
  refine ⟨by rw [hf]; simp, ?_⟩
  unfold encode_file
  cases hopen : fs.openOk p
  · simp
  · rw [hf]
    simp only [Bool.not_true, Bool.false_eq_true, if_false]
    split_ifs <;> simp

/-- Witness for C10: the dispatched gzip item for `a.html` is not skipped. -/
theorem dispatched_never_skipped_witness :
    encode_file oracleAll Algorithm.gzip pHtml ≠ .skipNoName :=
  (dispatched_never_skipped oracleAll algsGz walk1 Algorithm.gzip pHtml
    (by decide)).2

end Precompress
